import Mathlib

/-!
# Verification of `huffman_encoding.py`

A shallow embedding of the Huffman coding program `src/huffman_encoding.py`
(classes `HuffmanNode`; functions `build_frequency_table`, `build_huffman_tree`,
`build_codes_table`, `huffman_encoding`, `huffman_decoding`, `compress_folder`,
`decompress_folder`), together with proofs about the embedded definitions.

Modelling conventions:
* Python strings are modelled as `List Char`; Python's `None` tree reference is
  the `PyTree.null` constructor.
* Python functions that can raise an uncaught exception (`AttributeError`,
  `KeyError`, `IndexError`) are modelled with `Option`: `none` means the
  Python code raises.
* Python `dict` is modelled as an association list in insertion order;
  assignment to an existing key overwrites in place (`dictSet`, `dictIncr`),
  lookup is `dictGet` (`none` models `KeyError`).
* The standard library `heapq` module (`heapify`, `heappush`, `heappop` and the
  internal `_siftdown`/`_siftup`) is translated line by line from its pure
  Python reference implementation.  The two `while` loops are expressed with an
  explicit fuel argument so that every definition is structurally recursive and
  hence computable by the kernel; fuel `pos` (for `_siftdown`) and `endpos`
  (for `_siftup`) are provably sufficient, and with those fuel values the
  fuel-exhaustion branch coincides with the loop-exit branch.
-/

/-- The `HuffmanNode` class: `char` (possibly `None`), `freq`, `left`/`right`
children (possibly `None`).  A `None` reference itself is `PyTree.null`, so a
Python variable holding "a node or None" is just a `PyTree`. -/
inductive PyTree where
  | null : PyTree
  | node (char : Option Char) (freq : Nat) (left : PyTree) (right : PyTree) : PyTree
deriving DecidableEq, Repr

instance : Inhabited PyTree := ⟨PyTree.null⟩

/-- `self.freq` (only ever read on real nodes, never on `None`). -/
def PyTree.freqOf : PyTree → Nat
  | .null => 0
  | .node _ f _ _ => f

/-- `HuffmanNode.__lt__`: `self.freq < other.freq`. -/
def nodeLt (a b : PyTree) : Bool := a.freqOf < b.freqOf

/-- `heapq._siftdown`'s `while pos > startpos` loop, with `newitem = heap[pos]`
already read.  Fuel `pos` suffices: the position strictly decreases, and when
the fuel runs out the position is `0 ≤ startpos`, which is also the loop-exit
branch `heap[pos] = newitem`. -/
def siftdownLoop {α : Type} (lt : α → α → Bool) (newitem : α) (startpos : Nat) :
    Nat → List α → Nat → List α
  | 0, heap, pos => heap.set pos newitem
  | fuel + 1, heap, pos =>
    if startpos < pos then
      let parentpos := (pos - 1) / 2
      let parent := heap.getD parentpos newitem
      if lt newitem parent then
        siftdownLoop lt newitem startpos fuel (heap.set pos parent) parentpos
      else
        heap.set pos newitem
    else
      heap.set pos newitem

/-- `heapq._siftdown(heap, startpos, pos)`. -/
def siftdown {α : Type} [Inhabited α] (lt : α → α → Bool) (heap : List α)
    (startpos pos : Nat) : List α :=
  siftdownLoop lt (heap.getD pos default) startpos pos heap pos

/-- `heapq._siftup`'s `while childpos < endpos` loop; returns the final heap
and position.  Fuel `endpos` suffices since the position strictly increases and
stays below `endpos`. -/
def siftupLoop {α : Type} [Inhabited α] (lt : α → α → Bool) (endpos : Nat) :
    Nat → List α → Nat → List α × Nat
  | 0, heap, pos => (heap, pos)
  | fuel + 1, heap, pos =>
    let childpos := 2 * pos + 1
    if childpos < endpos then
      let rightpos := childpos + 1
      let childpos :=
        if rightpos < endpos && !(lt (heap.getD childpos default) (heap.getD rightpos default))
        then rightpos else childpos
      siftupLoop lt endpos fuel (heap.set pos (heap.getD childpos default)) childpos
    else
      (heap, pos)

/-- `heapq._siftup(heap, pos)`: bubble the leaf up, then `heap[pos] = newitem`
followed by `_siftdown(heap, startpos, pos)`. -/
def siftup {α : Type} [Inhabited α] (lt : α → α → Bool) (heap : List α) (pos : Nat) : List α :=
  let newitem := heap.getD pos default
  let r := siftupLoop lt heap.length heap.length heap pos
  siftdown lt (r.1.set r.2 newitem) pos r.2

/-- `heapq.heappush`: append, then sift down from the new last index. -/
def heappush {α : Type} [Inhabited α] (lt : α → α → Bool) (heap : List α) (item : α) : List α :=
  siftdown lt (heap ++ [item]) 0 heap.length

/-- `heapq.heappop`: pop the last element; on a now-empty heap return it,
otherwise swap it into index 0, sift up and return the old `heap[0]`.
`none` models the `IndexError` raised on an empty heap. -/
def heappop {α : Type} [Inhabited α] (lt : α → α → Bool) (heap : List α) :
    Option (α × List α) :=
  match heap with
  | [] => none
  | _ :: _ =>
    let lastelt := heap.getLastD default
    let rest := heap.dropLast
    match rest with
    | [] => some (lastelt, [])
    | h0 :: _ => some (h0, siftup lt (rest.set 0 lastelt) 0)

/-- `heapq.heapify`'s `for i in reversed(range(n//2))` loop. -/
def heapifyLoop {α : Type} [Inhabited α] (lt : α → α → Bool) : Nat → List α → List α
  | 0, x => x
  | i + 1, x => heapifyLoop lt i (siftup lt x i)

/-- `heapq.heapify`. -/
def heapify {α : Type} [Inhabited α] (lt : α → α → Bool) (x : List α) : List α :=
  heapifyLoop lt (x.length / 2) x

/-- Python `dict` lookup `d[k]` (`none` models `KeyError`). -/
def dictGet {β : Type} (d : List (Char × β)) (k : Char) : Option β :=
  (d.find? (fun p => p.1 = k)).map (fun p => p.2)

/-- Python `dict` assignment `d[k] = v`: overwrite in place if the key exists,
otherwise append (insertion order). -/
def dictSet {β : Type} (d : List (Char × β)) (k : Char) (v : β) : List (Char × β) :=
  if d.any (fun p => p.1 = k) then d.map (fun p => if p.1 = k then (k, v) else p)
  else d ++ [(k, v)]

/-- `defaultdict(int)` update `frequency[char] += 1`. -/
def dictIncr (d : List (Char × Nat)) (k : Char) : List (Char × Nat) :=
  if d.any (fun p => p.1 = k) then d.map (fun p => if p.1 = k then (p.1, p.2 + 1) else p)
  else d ++ [(k, 1)]

/-- `build_frequency_table(data)`. -/
def build_frequency_table (data : List Char) : List (Char × Nat) :=
  data.foldl dictIncr []

/-- The heap seeded in `build_huffman_tree`:
`[HuffmanNode(char, freq) for char, freq in frequency.items()]`. -/
def initialHeap (frequency : List (Char × Nat)) : List PyTree :=
  frequency.map (fun p => PyTree.node (some p.1) p.2 .null .null)

/-- The `while len(heap) > 1` loop of `build_huffman_tree`, then `heap[0]`.
Fuel `heap.length` suffices: each iteration shrinks the heap by one.  `none`
models the `IndexError` of `heap[0]` on an empty heap (empty frequency table);
the inner `none` branches are unreachable since the pops happen only when
`len(heap) > 1`. -/
def huffLoop : Nat → List PyTree → Option PyTree
  | 0, heap => heap.head?
  | fuel + 1, heap =>
    if 1 < heap.length then
      match heappop nodeLt heap with
      | none => none
      | some (left, h1) =>
        match heappop nodeLt h1 with
        | none => none
        | some (right, h2) =>
          huffLoop fuel (heappush nodeLt h2 (PyTree.node none (left.freqOf + right.freqOf) left right))
    else
      heap.head?

/-- `build_huffman_tree(frequency)`. -/
def build_huffman_tree (frequency : List (Char × Nat)) : Option PyTree :=
  let heap := heapify nodeLt (initialHeap frequency)
  huffLoop heap.length heap

/-- The inner `generate_codes(node, current_code)` of `build_codes_table`,
threading the `codes` dict. -/
def generate_codes : PyTree → List Char → List (Char × List Char) → List (Char × List Char)
  | .null, _, codes => codes
  | .node (some c) _ _ _, current_code, codes => dictSet codes c current_code
  | .node none _ l r, current_code, codes =>
    generate_codes r (current_code ++ ['1']) (generate_codes l (current_code ++ ['0']) codes)

/-- `build_codes_table(root)`. -/
def build_codes_table (root : PyTree) : List (Char × List Char) :=
  generate_codes root [] []

/-- `"".join(codes[char] for char in data)`; `none` models the `KeyError`
raised when some `char` has no code. -/
def encodeAll (codes : List (Char × List Char)) : List Char → Option (List Char)
  | [] => some []
  | c :: rest =>
    match dictGet codes c with
    | none => none
    | some code =>
      match encodeAll codes rest with
      | none => none
      | some bits => some (code ++ bits)

/-- `huffman_encoding(data)`.  Returns `(encoded_data, root)`; the pair
`([], PyTree.null)` is Python's `("", None)` for empty input. -/
def huffman_encoding (data : List Char) : Option (List Char × PyTree) :=
  if data = [] then some ([], PyTree.null)
  else
    match build_huffman_tree (build_frequency_table data) with
    | none => none
    | some root =>
      match encodeAll (build_codes_table root) data with
      | none => none
      | some bits => some (bits, root)

/-- The `for bit in encoded_data` loop of `huffman_decoding`: step to
`current.left` if the bit is `"0"` else `current.right`; emit the child's
char and reset to the root when it is a leaf.  `none` models the
`AttributeError` raised when the chosen child is `None`. -/
def decodeLoop (root : PyTree) : List Char → PyTree → List Char → Option (List Char)
  | [], _, acc => some acc.reverse
  | bit :: rest, current, acc =>
    match current with
    | .null => none
    | .node _ _ l r =>
      match (if bit = '0' then l else r) with
      | .null => none
      | .node (some c) _ _ _ => decodeLoop root rest root (c :: acc)
      | .node none f cl cr => decodeLoop root rest (.node none f cl cr) acc

/-- `huffman_decoding(encoded_data, root)`. -/
def huffman_decoding (encoded_data : List Char) (root : PyTree) : Option (List Char) :=
  if encoded_data = [] ∨ root = PyTree.null then some []
  else decodeLoop root encoded_data root []

/-- Encode then decode, as in the round-trip property. -/
def roundTrip (data : List Char) : Option (List Char) :=
  (huffman_encoding data).bind (fun pr => huffman_decoding pr.1 pr.2)

/-- `compress_folder`'s payload-building loop over the files yielded by
`os.walk(input_folder)` (each given by its full path and its content after
UTF-8 decoding): `file_index[file_path] = len(data); data += content + "\0"`. -/
def payloadOf (files : List (String × List Char)) : List Char × List (String × Nat) :=
  files.foldl (fun acc f => (acc.1 ++ f.2 ++ ['\x00'], acc.2 ++ [(f.1, acc.1.length)])) ([], [])

/-- `os.path.join(a, b)` on POSIX. -/
def pyJoin (a b : String) : String := a ++ "/" ++ b

/-- `os.path.relpath(path, base)` for a path lying under `base` (the only case
arising for paths produced by `os.walk(base)`). -/
def pyRelpath (path base : String) : String :=
  if (base.data ++ ['/']).isPrefixOf path.data then
    String.mk (path.data.drop (base.data.length + 1))
  else path

/-- `compress_folder(input_folder, output_file, tree_file)`, modelled over the
file list produced by `os.walk` and with the two `pickle.dump`ed artifacts
returned instead of written (per the external-interface contract,
serialization reconstructs them exactly).  `none` is the `root is None` abort
("No data to compress."), where nothing is written. -/
def compress_folder (files : List (String × List Char)) (input_folder : String) :
    Option (List Char × (PyTree × List (String × Nat) × String)) :=
  let pr := payloadOf files
  match huffman_encoding pr.1 with
  | none => none
  | some (encoded, root) =>
    if root = PyTree.null then none
    else some (encoded, (root, pr.2, input_folder))

/-- `decompress_folder(input_file, output_folder, tree_file)`, modelled with
the two unpickled artifacts as inputs and the written files (output path and
content) as result: content is `decoded_data[index:].split("\0", 1)[0]`,
the path is `os.path.join(output_folder, os.path.relpath(file_path,
original_folder))`. -/
def decompress_folder (encoded : List Char) (root : PyTree)
    (file_index : List (String × Nat)) (original_folder output_folder : String) :
    Option (List (String × List Char)) :=
  match huffman_decoding encoded root with
  | none => none
  | some decoded =>
    some (file_index.map (fun pr =>
      (pyJoin output_folder (pyRelpath pr.1 original_folder),
       (decoded.drop pr.2).takeWhile (fun ch => ch ≠ '\x00'))))

/-- Pack a folder and unpack the two artifacts into `output`. -/
def folderRoundTrip (files : List (String × List Char)) (input output : String) :
    Option (List (String × List Char)) :=
  match compress_folder files input with
  | none => none
  | some (encoded, (root, idx, orig)) => decompress_folder encoded root idx orig output

/-- Observable outcome of one `compress_folder` call: which artifacts got
written and what was printed. -/
structure CompressOutcome where
  wroteOutput : Bool
  wroteTree : Bool
  printed : List String
deriving DecidableEq, Repr

/-- The control flow of `compress_folder` with the success of each OS step as
a parameter: `root is None` aborts with "No data to compress."; a
directory-creation failure aborts; a failed artifact write prints an error and
falls through; `"Compression complete."` is printed unconditionally at the
end. -/
def compress_folder_flow (files : List (String × List Char))
    (mkdirOk writeOutputOk writeTreeOk : Bool) : CompressOutcome :=
  let pr := payloadOf files
  match huffman_encoding pr.1 with
  | none => ⟨false, false, []⟩
  | some (_, root) =>
    if root = PyTree.null then ⟨false, false, ["No data to compress."]⟩
    else if !mkdirOk then ⟨false, false, ["Error creating directories"]⟩
    else
      ⟨writeOutputOk, writeTreeOk,
        (if writeOutputOk then [] else ["Error writing compressed file"]) ++
          (if writeTreeOk then [] else ["Error writing tree file"]) ++
          ["Compression complete."]⟩

/-- Well-formed tree: exactly the shapes `build_huffman_tree` can produce.
Leaves carry a symbol and have no children; internal nodes carry no symbol
and have exactly two (well-formed) children. -/
inductive WFTree : PyTree → Prop
  | leaf (c : Char) (f : Nat) : WFTree (.node (some c) f .null .null)
  | internal (f : Nat) {l r : PyTree} : WFTree l → WFTree r → WFTree (.node none f l r)

/-- Decidable version of `WFTree`. -/
def isWellFormed : PyTree → Bool
  | .null => false
  | .node (some _) _ .null .null => true
  | .node (some _) _ _ _ => false
  | .node none _ l r => isWellFormed l && isWellFormed r

/-- The symbols at the leaves, in left-to-right order (a node carrying a
symbol counts as a leaf, exactly as in `generate_codes`). -/
def leavesOf : PyTree → List Char
  | .null => []
  | .node (some c) _ _ _ => [c]
  | .node none _ l r => leavesOf l ++ leavesOf r

/-- Root-to-leaf paths: the code of every leaf symbol (`'0'` = left,
`'1'` = right), with accumulated prefix `pre`. -/
def pathsOf : PyTree → List Char → List (Char × List Char)
  | .null, _ => []
  | .node (some c) _ _ _, pre => [(c, pre)]
  | .node none _ l r, pre => pathsOf l (pre ++ ['0']) ++ pathsOf r (pre ++ ['1'])

/-- Is the node an internal (symbol-free) node? -/
def isInternalB : PyTree → Bool
  | .node none _ _ _ => true
  | _ => false

/-! ## List helper lemmas -/

theorem set_getD_self {α : Type} : ∀ (l : List α) (i : Nat) (d : α), i < l.length →
    l.set i (l.getD i d) = l := by
  intro l
  induction l with
  | nil => intro i d h; simp at h
  | cons b s ih =>
    intro i d h
    cases i with
    | zero => simp
    | succ i => simpa using ih i d (by simpa using h)

theorem getD_set_self {α : Type} : ∀ (l : List α) (i : Nat) (a d : α), i < l.length →
    (l.set i a).getD i d = a := by
  intro l
  induction l with
  | nil => intro i a d h; simp at h
  | cons b s ih =>
    intro i a d h
    cases i with
    | zero => simp
    | succ i => simpa using ih i a d (by simpa using h)

theorem perm_cons_set {α : Type} (d v : α) :
    ∀ (t : List α) (m : Nat), m < t.length → ((t.getD m d) :: t.set m v).Perm (v :: t) := by
  intro t
  induction t with
  | nil => intro m h; simp at h
  | cons b s ih =>
    intro m h
    cases m with
    | zero => simpa using List.Perm.swap v b s
    | succ m =>
      have hms : m < s.length := by simpa using h
      have h1 : (s.getD m d :: b :: s.set m v).Perm (b :: s.getD m d :: s.set m v) :=
        List.Perm.swap b (s.getD m d) (s.set m v)
      have h2 : (b :: s.getD m d :: s.set m v).Perm (b :: v :: s) := (ih m hms).cons b
      have h3 : (b :: v :: s).Perm (v :: b :: s) := List.Perm.swap v b s
      simpa using (h1.trans h2).trans h3

theorem perm_cons_set_exch {α : Type} (a v : α) :
    ∀ (t : List α) (m : Nat), m < t.length → (v :: t.set m a).Perm (a :: t.set m v) := by
  intro t
  induction t with
  | nil => intro m h; simp at h
  | cons b s ih =>
    intro m h
    cases m with
    | zero => simpa using List.Perm.swap a v s
    | succ m =>
      have hms : m < s.length := by simpa using h
      have h1 : (v :: b :: s.set m a).Perm (b :: v :: s.set m a) :=
        List.Perm.swap b v (s.set m a)
      have h2 : (b :: v :: s.set m a).Perm (b :: a :: s.set m v) := (ih m hms).cons b
      have h3 : (b :: a :: s.set m v).Perm (a :: b :: s.set m v) :=
        List.Perm.swap a b (s.set m v)
      simpa using (h1.trans h2).trans h3

theorem perm_set_set {α : Type} :
    ∀ (l : List α) (i j : Nat) (d v : α), i < l.length → j < l.length → i ≠ j →
      ((l.set i (l.getD j d)).set j v).Perm (l.set i v) := by
  intro l
  induction l with
  | nil => intro i j d v hi; simp at hi
  | cons b s ih =>
    intro i j d v hi hj hij
    cases i with
    | zero =>
      cases j with
      | zero => exact absurd rfl hij
      | succ j =>
        have hjs : j < s.length := by simpa using hj
        simpa using perm_cons_set d v s j hjs
    | succ i =>
      have his : i < s.length := by simpa using hi
      cases j with
      | zero =>
        simpa using perm_cons_set_exch b v s i his
      | succ j =>
        have hjs : j < s.length := by simpa using hj
        have hij' : i ≠ j := fun h => hij (by simp [h])
        simpa using (ih i j d v his hjs hij').cons b

/-! ## The heap operations permute their input -/

theorem siftdownLoop_perm {α : Type} (lt : α → α → Bool) (ni : α) (sp : Nat) :
    ∀ (fuel : Nat) (heap : List α) (pos : Nat), pos < heap.length →
      (siftdownLoop lt ni sp fuel heap pos).Perm (heap.set pos ni) := by
  intro fuel
  induction fuel with
  | zero => intro heap pos _; simp [siftdownLoop]
  | succ fuel ih =>
    intro heap pos hpos
    simp only [siftdownLoop]
    by_cases hsp : sp < pos
    · simp only [if_pos hsp]
      have hpp : (pos - 1) / 2 < pos := by omega
      by_cases hlt : lt ni (heap.getD ((pos - 1) / 2) ni) = true
      · simp only [if_pos hlt]
        have hlen : (pos - 1) / 2 < (heap.set pos (heap.getD ((pos - 1) / 2) ni)).length := by
          simpa using Nat.lt_trans hpp hpos
        exact (ih _ _ hlen).trans
          (perm_set_set heap pos ((pos - 1) / 2) ni ni hpos (Nat.lt_trans hpp hpos)
            (Nat.ne_of_gt hpp))
      · rw [if_neg hlt]
    · rw [if_neg hsp]

theorem siftupLoop_spec {α : Type} [Inhabited α] (lt : α → α → Bool) (endpos : Nat) :
    ∀ (fuel : Nat) (heap : List α) (pos : Nat), heap.length = endpos → pos < endpos →
      (siftupLoop lt endpos fuel heap pos).1.length = endpos ∧
      (siftupLoop lt endpos fuel heap pos).2 < endpos ∧
      ∀ x : α, ((siftupLoop lt endpos fuel heap pos).1.set (siftupLoop lt endpos fuel heap pos).2 x).Perm
        (heap.set pos x) := by
  intro fuel
  induction fuel with
  | zero =>
    intro heap pos hlen hpos
    simp only [siftupLoop]
    exact ⟨hlen, hpos, fun x => List.Perm.refl _⟩
  | succ fuel ih =>
    intro heap pos hlen hpos
    simp only [siftupLoop]
    by_cases h1 : 2 * pos + 1 < endpos
    · simp only [if_pos h1]
      have key : ∀ cp : Nat, pos < cp → cp < endpos →
          (siftupLoop lt endpos fuel (heap.set pos (heap.getD cp default)) cp).1.length = endpos ∧
          (siftupLoop lt endpos fuel (heap.set pos (heap.getD cp default)) cp).2 < endpos ∧
          ∀ x : α, ((siftupLoop lt endpos fuel (heap.set pos (heap.getD cp default)) cp).1.set
              (siftupLoop lt endpos fuel (heap.set pos (heap.getD cp default)) cp).2 x).Perm
            (heap.set pos x) := by
        intro cp hcp1 hcp2
        obtain ⟨l1, l2, l3⟩ := ih (heap.set pos (heap.getD cp default)) cp (by simpa using hlen) hcp2
        refine ⟨l1, l2, fun x => (l3 x).trans ?_⟩
        exact perm_set_set heap pos cp default x (by omega) (by omega) (Nat.ne_of_lt hcp1)
      have hcp1 : pos < (if 2 * pos + 1 + 1 < endpos &&
          !(lt (heap.getD (2 * pos + 1) default) (heap.getD (2 * pos + 1 + 1) default))
          then 2 * pos + 1 + 1 else 2 * pos + 1) := by
        split <;> omega
      have hcp2 : (if 2 * pos + 1 + 1 < endpos &&
          !(lt (heap.getD (2 * pos + 1) default) (heap.getD (2 * pos + 1 + 1) default))
          then 2 * pos + 1 + 1 else 2 * pos + 1) < endpos := by
        split
        · rename_i hcond
          exact of_decide_eq_true (Bool.and_elim_left hcond)
        · exact h1
      exact key _ hcp1 hcp2
    · simp only [if_neg h1]
      exact ⟨hlen, hpos, fun x => List.Perm.refl _⟩

theorem siftup_perm {α : Type} [Inhabited α] (lt : α → α → Bool) (heap : List α) (pos : Nat)
    (h : pos < heap.length) : (siftup lt heap pos).Perm heap := by
  obtain ⟨l1, l2, l3⟩ := siftupLoop_spec lt heap.length heap.length heap pos rfl h
  simp only [siftup, siftdown]
  rw [getD_set_self _ _ _ _ (by omega)]
  have h1 := siftdownLoop_perm lt (heap.getD pos default) pos
    (siftupLoop lt heap.length heap.length heap pos).2
    ((siftupLoop lt heap.length heap.length heap pos).1.set
      (siftupLoop lt heap.length heap.length heap pos).2 (heap.getD pos default))
    (siftupLoop lt heap.length heap.length heap pos).2
    (by simp only [List.length_set]; omega)
  rw [List.set_set] at h1
  have h3 : heap.set pos (heap.getD pos default) = heap := set_getD_self heap pos default h
  have h4 := l3 (heap.getD pos default)
  rw [h3] at h4
  exact h1.trans h4

theorem heappush_perm {α : Type} [Inhabited α] (lt : α → α → Bool) (heap : List α) (item : α) :
    (heappush lt heap item).Perm (item :: heap) := by
  have hlen : heap.length < (heap ++ [item]).length := by simp
  have h1 := siftdownLoop_perm lt ((heap ++ [item]).getD heap.length default) 0 heap.length
    (heap ++ [item]) heap.length hlen
  rw [set_getD_self _ _ _ hlen] at h1
  exact h1.trans (List.perm_append_singleton item heap)

theorem dropLast_append_getLastD {α : Type} :
    ∀ (l : List α) (d : α), l ≠ [] → l.dropLast ++ [l.getLastD d] = l := by
  intro l
  induction l with
  | nil => intro d h; exact absurd rfl h
  | cons a t ih =>
    intro d _
    cases t with
    | nil => simp
    | cons b u => simpa using ih b (by simp)

theorem heappop_spec {α : Type} [Inhabited α] (lt : α → α → Bool) (heap : List α)
    (hne : heap ≠ []) :
    ∃ x h', heappop lt heap = some (x, h') ∧ (x :: h').Perm heap := by
  match heap, hne with
  | a :: t, _ =>
    cases hdl : (a :: t).dropLast with
    | nil =>
      have ht : t = [] := by
        cases t with
        | nil => rfl
        | cons b u => simp at hdl
      subst ht
      exact ⟨a, [], by simp [heappop], by simp⟩
    | cons h0 t0 =>
      refine ⟨h0, siftup lt (((a :: t).dropLast).set 0 ((a :: t).getLastD default)) 0,
        by simp only [heappop, hdl], ?_⟩
      have hlen : 0 < ((a :: t).dropLast).length := by simp [hdl]
      have h1 : (siftup lt (((a :: t).dropLast).set 0 ((a :: t).getLastD default)) 0).Perm
          (((a :: t).dropLast).set 0 ((a :: t).getLastD default)) :=
        siftup_perm lt _ 0 (by simpa using hlen)
      have h2 : ((((a :: t).dropLast).getD 0 default) :: ((a :: t).dropLast).set 0
          ((a :: t).getLastD default)).Perm (((a :: t).getLastD default) :: (a :: t).dropLast) :=
        perm_cons_set default ((a :: t).getLastD default) ((a :: t).dropLast) 0 hlen
      have h3 : (((a :: t).getLastD default) :: (a :: t).dropLast).Perm
          ((a :: t).dropLast ++ [(a :: t).getLastD default]) :=
        (List.perm_append_singleton _ _).symm
      have h4 : (a :: t).dropLast ++ [(a :: t).getLastD default] = a :: t :=
        dropLast_append_getLastD (a :: t) default (by simp)
      have h5 : (((a :: t).dropLast).getD 0 default) = h0 := by rw [hdl]; rfl
      rw [h5] at h2
      rw [h4] at h3
      exact ((h1.cons h0).trans h2).trans h3

theorem heapifyLoop_perm {α : Type} [Inhabited α] (lt : α → α → Bool) :
    ∀ (k : Nat) (x : List α), k ≤ x.length → (heapifyLoop lt k x).Perm x := by
  intro k
  induction k with
  | zero => intro x _; simp [heapifyLoop]
  | succ k ih =>
    intro x hk
    have h1 : (siftup lt x k).Perm x := siftup_perm lt x k (by omega)
    have hlen : (siftup lt x k).length = x.length := h1.length_eq
    exact (ih (siftup lt x k) (by omega)).trans h1

theorem heapify_perm {α : Type} [Inhabited α] (lt : α → α → Bool) (x : List α) :
    (heapify lt x).Perm x :=
  heapifyLoop_perm lt (x.length / 2) x (Nat.div_le_self _ _)

/-! ## The tree-building loop: well-formedness, leaves, total frequency -/

theorem huffLoop_spec (S : List Char) (T : Nat) :
    ∀ (fuel : Nat) (heap : List PyTree), heap.length ≤ fuel → 1 ≤ heap.length →
      (∀ t ∈ heap, WFTree t) → ((heap.map leavesOf).flatten).Perm S →
      (heap.map PyTree.freqOf).sum = T →
      ∃ root, huffLoop fuel heap = some root ∧ WFTree root ∧ (leavesOf root).Perm S ∧
        root.freqOf = T := by
  intro fuel
  induction fuel with
  | zero =>
    intro heap hfuel hne _ _ _
    exact absurd (le_trans hne hfuel) (by decide)
  | succ fuel ih =>
    intro heap hfuel hne hwf hleaves hsum
    by_cases hlen : 1 < heap.length
    · have hne1 : heap ≠ [] := by
        intro h; rw [h] at hlen; simp at hlen
      obtain ⟨left, h1, hpop1, hperm1⟩ := heappop_spec nodeLt heap hne1
      have hlen1 : h1.length + 1 = heap.length := by simpa using hperm1.length_eq
      have hne2 : h1 ≠ [] := by
        intro h; rw [h] at hlen1; simp at hlen1; omega
      obtain ⟨right, h2, hpop2, hperm2⟩ := heappop_spec nodeLt h1 hne2
      have hlen2 : h2.length + 1 = h1.length := by simpa using hperm2.length_eq
      have hpush := heappush_perm nodeLt h2
        (PyTree.node none (left.freqOf + right.freqOf) left right)
      have hmemleft : left ∈ heap := hperm1.subset (List.mem_cons_self _ _)
      have hsub1 : ∀ t ∈ h1, t ∈ heap := fun t ht => hperm1.subset (List.mem_cons_of_mem _ ht)
      have hmemright : right ∈ heap := hsub1 right (hperm2.subset (List.mem_cons_self _ _))
      have hsub2 : ∀ t ∈ h2, t ∈ heap := fun t ht =>
        hsub1 t (hperm2.subset (List.mem_cons_of_mem _ ht))
      have hwfm : WFTree (PyTree.node none (left.freqOf + right.freqOf) left right) :=
        WFTree.internal _ (hwf left hmemleft) (hwf right hmemright)
      have hwf3 : ∀ t ∈ heappush nodeLt h2
          (PyTree.node none (left.freqOf + right.freqOf) left right), WFTree t := by
        intro t ht
        rcases List.mem_cons.mp (hpush.subset ht) with h | h
        · exact h ▸ hwfm
        · exact hwf t (hsub2 t h)
      have hflat1 : ((left :: h1).map leavesOf).flatten.Perm S :=
        ((hperm1.map leavesOf).flatten).trans hleaves
      have hflat2 : ((right :: h2).map leavesOf).flatten.Perm ((h1.map leavesOf).flatten) :=
        (hperm2.map leavesOf).flatten
      have hleaves3 : (((heappush nodeLt h2
          (PyTree.node none (left.freqOf + right.freqOf) left right)).map leavesOf).flatten).Perm
          S := by
        have e1 := (hpush.map leavesOf).flatten
        have e2 : ((PyTree.node none (left.freqOf + right.freqOf) left right :: h2).map
            leavesOf).flatten = (leavesOf left ++ leavesOf right) ++ (h2.map leavesOf).flatten := by
          simp [leavesOf]
        rw [e2] at e1
        have e3 : ((leavesOf left ++ leavesOf right) ++ (h2.map leavesOf).flatten).Perm
            (leavesOf left ++ (h1.map leavesOf).flatten) := by
          rw [List.append_assoc]
          exact List.Perm.append_left _ (by simpa using hflat2)
        have e4 : (leavesOf left ++ (h1.map leavesOf).flatten).Perm S := by
          simpa using hflat1
        exact (e1.trans e3).trans e4
      have hsum3 : (((heappush nodeLt h2
          (PyTree.node none (left.freqOf + right.freqOf) left right)).map
          PyTree.freqOf).sum) = T := by
        have e1 := (hpush.map PyTree.freqOf).sum_eq
        have e2 := (hperm1.map PyTree.freqOf).sum_eq
        have e3 := (hperm2.map PyTree.freqOf).sum_eq
        rw [List.map_cons, List.sum_cons] at e1 e2 e3
        have em : PyTree.freqOf (PyTree.node none (left.freqOf + right.freqOf) left right)
            = left.freqOf + right.freqOf := rfl
        rw [em] at e1
        omega
      have hlen3 := hpush.length_eq
      simp at hlen3
      obtain ⟨root, hroot, hwfr, hlr, hfr⟩ := ih _ (by omega) (by omega) hwf3 hleaves3 hsum3
      refine ⟨root, ?_, hwfr, hlr, hfr⟩
      simp only [huffLoop, if_pos hlen, hpop1, hpop2]
      exact hroot
    · have hone : heap.length = 1 := by omega
      obtain ⟨r, hr⟩ := List.length_eq_one.mp hone
      subst hr
      refine ⟨r, by simp [huffLoop], hwf r (by simp), ?_, ?_⟩
      · simpa using hleaves
      · simpa using hsum

theorem initialHeap_wf (freq : List (Char × Nat)) : ∀ t ∈ initialHeap freq, WFTree t := by
  intro t ht
  simp only [initialHeap, List.mem_map] at ht
  obtain ⟨p, _, rfl⟩ := ht
  exact WFTree.leaf p.1 p.2

theorem initialHeap_leaves (freq : List (Char × Nat)) :
    ((initialHeap freq).map leavesOf).flatten = freq.map Prod.fst := by
  induction freq with
  | nil => rfl
  | cons p rest ih => simpa [initialHeap, leavesOf] using ih

theorem initialHeap_sum (freq : List (Char × Nat)) :
    ((initialHeap freq).map PyTree.freqOf).sum = (freq.map Prod.snd).sum := by
  induction freq with
  | nil => rfl
  | cons p rest ih => simpa [initialHeap, PyTree.freqOf] using ih

/-- `build_huffman_tree` on a non-empty frequency list: it succeeds, the tree
is well-formed, its leaves are a permutation of the keys, and the root
frequency is the sum of the counts. -/
theorem build_huffman_tree_spec (freq : List (Char × Nat)) (hne : freq ≠ []) :
    ∃ root, build_huffman_tree freq = some root ∧ WFTree root ∧
      (leavesOf root).Perm (freq.map Prod.fst) ∧ root.freqOf = (freq.map Prod.snd).sum := by
  have hperm := heapify_perm nodeLt (initialHeap freq)
  have hlen : (heapify nodeLt (initialHeap freq)).length = freq.length := by
    simpa [initialHeap] using hperm.length_eq
  have hpos : 0 < freq.length := List.length_pos.mpr hne
  obtain ⟨root, hroot, h2, h3, h4⟩ := huffLoop_spec (freq.map Prod.fst) ((freq.map Prod.snd).sum)
    (heapify nodeLt (initialHeap freq)).length (heapify nodeLt (initialHeap freq)) le_rfl
    (by omega)
    (fun t ht => initialHeap_wf freq t (hperm.subset ht))
    (by
      have h := (hperm.map leavesOf).flatten
      rwa [initialHeap_leaves] at h)
    (by
      have h := (hperm.map PyTree.freqOf).sum_eq
      rwa [initialHeap_sum] at h)
  exact ⟨root, hroot, h2, h3, h4⟩

/-! ## Frequency table lemmas -/

theorem any_key_iff {β : Type} (d : List (Char × β)) (c : Char) :
    d.any (fun p => p.1 = c) = true ↔ c ∈ d.map Prod.fst := by
  constructor
  · intro h
    obtain ⟨p, hp, hc⟩ := List.any_eq_true.mp h
    exact List.mem_map.mpr ⟨p, hp, of_decide_eq_true hc⟩
  · intro h
    obtain ⟨p, hp, he⟩ := List.mem_map.mp h
    exact List.any_eq_true.mpr ⟨p, hp, decide_eq_true he⟩

theorem dictIncr_keys_mem (d : List (Char × Nat)) (a c : Char) :
    a ∈ (dictIncr d c).map Prod.fst ↔ a ∈ d.map Prod.fst ∨ a = c := by
  unfold dictIncr
  by_cases h : d.any (fun p => p.1 = c) = true
  · have hc : c ∈ d.map Prod.fst := (any_key_iff d c).mp h
    rw [if_pos h, List.map_map]
    have he : d.map (Prod.fst ∘ fun p => if p.1 = c then (p.1, p.2 + 1) else p) = d.map Prod.fst := by
      apply List.map_congr_left
      intro p _
      by_cases hp : p.1 = c <;> simp [hp]
    rw [he]
    constructor
    · exact Or.inl
    · rintro (h1 | rfl)
      · exact h1
      · exact hc
  · rw [if_neg h]
    simp

theorem dictIncr_keys_nodup (d : List (Char × Nat)) (c : Char)
    (hd : (d.map Prod.fst).Nodup) : ((dictIncr d c).map Prod.fst).Nodup := by
  unfold dictIncr
  by_cases h : d.any (fun p => p.1 = c) = true
  · rw [if_pos h, List.map_map]
    have he : d.map (Prod.fst ∘ fun p => if p.1 = c then (p.1, p.2 + 1) else p) = d.map Prod.fst := by
      apply List.map_congr_left
      intro p _
      by_cases hp : p.1 = c <;> simp [hp]
    rwa [he]
  · rw [if_neg h]
    have hc : c ∉ d.map Prod.fst := fun hm => h ((any_key_iff d c).mpr hm)
    simp [List.nodup_append, hd, hc]

theorem freq_fold_nodup : ∀ (data : List Char) (acc : List (Char × Nat)),
    (acc.map Prod.fst).Nodup → ((data.foldl dictIncr acc).map Prod.fst).Nodup := by
  intro data
  induction data with
  | nil => intro acc h; exact h
  | cons c rest ih =>
    intro acc h
    exact ih (dictIncr acc c) (dictIncr_keys_nodup acc c h)

theorem freq_fold_mem : ∀ (data : List Char) (acc : List (Char × Nat)) (a : Char),
    a ∈ (data.foldl dictIncr acc).map Prod.fst ↔ a ∈ acc.map Prod.fst ∨ a ∈ data := by
  intro data
  induction data with
  | nil => intro acc a; simp
  | cons c rest ih =>
    intro acc a
    rw [List.foldl_cons, ih (dictIncr acc c) a, dictIncr_keys_mem]
    simp only [List.mem_cons]
    tauto

theorem build_frequency_table_nodup (data : List Char) :
    ((build_frequency_table data).map Prod.fst).Nodup :=
  freq_fold_nodup data [] (by simp)

theorem build_frequency_table_mem (data : List Char) (a : Char) :
    a ∈ (build_frequency_table data).map Prod.fst ↔ a ∈ data := by
  rw [build_frequency_table, freq_fold_mem]
  simp

theorem build_frequency_table_ne_nil (data : List Char) (h : data ≠ []) :
    build_frequency_table data ≠ [] := by
  match data, h with
  | c :: rest, _ =>
    intro hf
    have := (build_frequency_table_mem (c :: rest) c).mpr (List.mem_cons_self c rest)
    rw [hf] at this
    simp at this

/-! ## Code table lemmas -/

theorem pathsOf_shift : ∀ (t : PyTree) (pre : List Char),
    pathsOf t pre = (pathsOf t []).map (fun e => (e.1, pre ++ e.2)) := by
  intro t
  induction t with
  | null => intro pre; rfl
  | node ch f l r ihl ihr =>
    cases ch with
    | some c => intro pre; simp [pathsOf]
    | none =>
      intro pre
      simp only [pathsOf, List.nil_append]
      rw [ihl (pre ++ ['0']), ihr (pre ++ ['1']), ihl ['0'], ihr ['1']]
      simp only [List.map_append, List.map_map]
      congr 1
      · apply List.map_congr_left
        intro e _
        simp
      · apply List.map_congr_left
        intro e _
        simp

theorem pathsOf_fst : ∀ (t : PyTree) (pre : List Char),
    (pathsOf t pre).map Prod.fst = leavesOf t := by
  intro t
  induction t with
  | null => intro pre; rfl
  | node ch f l r ihl ihr =>
    cases ch with
    | some c => intro pre; simp [pathsOf, leavesOf]
    | none =>
      intro pre
      simp only [pathsOf, leavesOf, List.map_append]
      rw [ihl, ihr]

theorem dictSet_fresh {β : Type} (d : List (Char × β)) (c : Char) (v : β)
    (h : c ∉ d.map Prod.fst) : dictSet d c v = d ++ [(c, v)] := by
  unfold dictSet
  rw [if_neg (fun ha => h ((any_key_iff d c).mp ha))]

theorem generate_codes_eq : ∀ (t : PyTree), (leavesOf t).Nodup →
    ∀ (pre : List Char) (codes : List (Char × List Char)),
      (∀ a ∈ leavesOf t, a ∉ codes.map Prod.fst) →
      generate_codes t pre codes = codes ++ pathsOf t pre := by
  intro t
  induction t with
  | null => intro _ pre codes _; simp [generate_codes, pathsOf]
  | node ch f l r ihl ihr =>
    intro hnd pre codes hfresh
    cases ch with
    | some c =>
      simp only [generate_codes, pathsOf]
      exact dictSet_fresh codes c pre (hfresh c (by simp [leavesOf]))
    | none =>
      simp only [generate_codes, pathsOf]
      simp only [leavesOf] at hnd hfresh
      have hndl : (leavesOf l).Nodup := hnd.of_append_left
      have hndr : (leavesOf r).Nodup := hnd.of_append_right
      have hdisj : ∀ a ∈ leavesOf r, a ∉ leavesOf l := by
        intro a har hal
        exact (List.nodup_append.mp hnd).2.2 hal har
      rw [ihl hndl (pre ++ ['0']) codes
        (fun a ha => hfresh a (List.mem_append.mpr (Or.inl ha)))]
      have key : ∀ a ∈ leavesOf r, a ∉ (codes ++ pathsOf l (pre ++ ['0'])).map Prod.fst := by
        intro a ha
        rw [List.map_append, pathsOf_fst]
        simp only [List.mem_append]
        rintro (h | h)
        · exact hfresh a (List.mem_append.mpr (Or.inr ha)) h
        · exact hdisj a ha h
      rw [ihr hndr (pre ++ ['1']) _ key, List.append_assoc]

theorem build_codes_table_eq (root : PyTree) (h : (leavesOf root).Nodup) :
    build_codes_table root = pathsOf root [] := by
  unfold build_codes_table
  rw [generate_codes_eq root h [] [] (by simp)]
  simp

theorem dictGet_mem {β : Type} (d : List (Char × β)) (k : Char) (v : β)
    (h : dictGet d k = some v) : (k, v) ∈ d := by
  unfold dictGet at h
  cases hf : d.find? (fun p => p.1 = k) with
  | none => rw [hf] at h; simp at h
  | some p =>
    rw [hf] at h
    simp at h
    have hp := List.mem_of_find?_eq_some hf
    have hk : p.1 = k := by
      have hk' := List.find?_some hf
      simpa using hk'
    have hpv : p = (k, v) := by
      cases p
      simp_all
    rwa [hpv] at hp

theorem dictGet_isSome_of_mem {β : Type} (d : List (Char × β)) (k : Char)
    (h : k ∈ d.map Prod.fst) : ∃ v, dictGet d k = some v := by
  obtain ⟨p, hp, he⟩ := List.mem_map.mp h
  cases hf : d.find? (fun p => p.1 = k) with
  | some q => exact ⟨q.2, by simp [dictGet, hf]⟩
  | none =>
    exfalso
    exact (List.find?_eq_none.mp hf p hp) (decide_eq_true he)

/-! ## Encoder lemmas -/

theorem encodeAll_some (codes : List (Char × List Char)) :
    ∀ (data : List Char), (∀ c ∈ data, ∃ v, dictGet codes c = some v) →
      ∃ bits, encodeAll codes data = some bits := by
  intro data
  induction data with
  | nil => intro _; exact ⟨[], rfl⟩
  | cons c rest ih =>
    intro h
    obtain ⟨v, hv⟩ := h c (List.mem_cons_self _ _)
    obtain ⟨bits, hb⟩ := ih (fun a ha => h a (List.mem_cons_of_mem _ ha))
    exact ⟨v ++ bits, by simp [encodeAll, hv, hb]⟩

theorem encodeAll_cons (codes : List (Char × List Char)) (c : Char) (rest bits : List Char)
    (h : encodeAll codes (c :: rest) = some bits) :
    ∃ code bits', dictGet codes c = some code ∧ encodeAll codes rest = some bits' ∧
      bits = code ++ bits' := by
  simp only [encodeAll] at h
  cases hg : dictGet codes c with
  | none => rw [hg] at h; simp at h
  | some code =>
    rw [hg] at h
    cases he : encodeAll codes rest with
    | none => rw [he] at h; simp at h
    | some bits' =>
      rw [he] at h
      simp at h
      exact ⟨code, bits', rfl, rfl, h.symm⟩

theorem encodeAll_flatten (codes : List (Char × List Char)) :
    ∀ (data bits : List Char), encodeAll codes data = some bits →
      bits = (data.map (fun c => (dictGet codes c).getD [])).flatten := by
  intro data
  induction data with
  | nil =>
    intro bits h
    simp only [encodeAll, Option.some_inj] at h
    simp [← h]
  | cons c rest ih =>
    intro bits h
    obtain ⟨code, bits', hg, he, hb⟩ := encodeAll_cons codes c rest bits h
    rw [hb, ih bits' he]
    simp [hg]

/-! ## Decoder lemmas -/

theorem pathsOf_internal_mem (l r : PyTree) (f : Nat) (c : Char) (p : List Char)
    (h : (c, p) ∈ pathsOf (PyTree.node none f l r) []) :
    (∃ q, p = '0' :: q ∧ (c, q) ∈ pathsOf l []) ∨
    (∃ q, p = '1' :: q ∧ (c, q) ∈ pathsOf r []) := by
  simp only [pathsOf, List.nil_append, List.mem_append] at h
  rcases h with h | h
  · left
    rw [pathsOf_shift l ['0']] at h
    obtain ⟨⟨a, q⟩, he, heq⟩ := List.mem_map.mp h
    simp only [Prod.mk.injEq] at heq
    obtain ⟨h1, h2⟩ := heq
    exact ⟨q, by rw [← h2]; rfl, h1 ▸ he⟩
  · right
    rw [pathsOf_shift r ['1']] at h
    obtain ⟨⟨a, q⟩, he, heq⟩ := List.mem_map.mp h
    simp only [Prod.mk.injEq] at heq
    obtain ⟨h1, h2⟩ := heq
    exact ⟨q, by rw [← h2]; rfl, h1 ▸ he⟩

theorem decode_descend (root : PyTree) : ∀ (t : PyTree), WFTree t → isInternalB t = true →
    ∀ (c : Char) (p q acc : List Char), (c, p) ∈ pathsOf t [] →
      decodeLoop root (p ++ q) t acc = decodeLoop root q root (c :: acc) := by
  intro t hwf
  induction hwf with
  | leaf c f => intro hint; simp [isInternalB] at hint
  | @internal f l r hl hr ihl ihr =>
    intro _ c p q acc hmem
    rcases pathsOf_internal_mem l r f c p hmem with ⟨p', rfl, hm⟩ | ⟨p', rfl, hm⟩
    · cases hl with
      | leaf lc lf =>
        simp only [pathsOf, List.mem_singleton, Prod.mk.injEq] at hm
        obtain ⟨rfl, rfl⟩ := hm
        simp [decodeLoop]
      | @internal lf ll lr hll hlr =>
        have hstep : decodeLoop root (('0' :: p') ++ q) (PyTree.node none f
            (PyTree.node none lf ll lr) r) acc
            = decodeLoop root (p' ++ q) (PyTree.node none lf ll lr) acc := by
          simp [decodeLoop]
        rw [hstep]
        exact ihl rfl c p' q acc hm
    · cases hr with
      | leaf rc rf =>
        simp only [pathsOf, List.mem_singleton, Prod.mk.injEq] at hm
        obtain ⟨rfl, rfl⟩ := hm
        simp [decodeLoop]
      | @internal rf rl rr hrl hrr =>
        have hstep : decodeLoop root (('1' :: p') ++ q) (PyTree.node none f l
            (PyTree.node none rf rl rr)) acc
            = decodeLoop root (p' ++ q) (PyTree.node none rf rl rr) acc := by
          simp [decodeLoop]
        rw [hstep]
        exact ihr rfl c p' q acc hm

theorem decode_prefixWalk (root : PyTree) : ∀ (t : PyTree), WFTree t → isInternalB t = true →
    ∀ (c : Char) (p q acc : List Char), (c, p) ∈ pathsOf t [] → q.length < p.length →
      q <+: p → decodeLoop root q t acc = some acc.reverse := by
  intro t hwf
  induction hwf with
  | leaf c f => intro hint; simp [isInternalB] at hint
  | @internal f l r hl hr ihl ihr =>
    intro _ c p q acc hmem hlen hpre
    cases q with
    | nil => simp [decodeLoop]
    | cons b q' =>
      rcases pathsOf_internal_mem l r f c p hmem with ⟨p', rfl, hm⟩ | ⟨p', rfl, hm⟩
      · obtain ⟨hb, hq⟩ := List.cons_prefix_cons.mp hpre
        subst hb
        cases hl with
        | leaf lc lf =>
          simp only [pathsOf, List.mem_singleton, Prod.mk.injEq] at hm
          obtain ⟨rfl, rfl⟩ := hm
          simp only [List.length_cons, List.length_nil] at hlen
          omega
        | @internal lf ll lr hll hlr =>
          have hstep : decodeLoop root ('0' :: q') (PyTree.node none f
              (PyTree.node none lf ll lr) r) acc
              = decodeLoop root q' (PyTree.node none lf ll lr) acc := by
            simp [decodeLoop]
          rw [hstep]
          exact ihl rfl c p' q' acc hm (by simp only [List.length_cons] at hlen; omega) hq
      · obtain ⟨hb, hq⟩ := List.cons_prefix_cons.mp hpre
        subst hb
        cases hr with
        | leaf rc rf =>
          simp only [pathsOf, List.mem_singleton, Prod.mk.injEq] at hm
          obtain ⟨rfl, rfl⟩ := hm
          simp only [List.length_cons, List.length_nil] at hlen
          omega
        | @internal rf rl rr hrl hrr =>
          have hstep : decodeLoop root ('1' :: q') (PyTree.node none f l
              (PyTree.node none rf rl rr)) acc
              = decodeLoop root q' (PyTree.node none rf rl rr) acc := by
            simp [decodeLoop]
          rw [hstep]
          exact ihr rfl c p' q' acc hm (by simp only [List.length_cons] at hlen; omega) hq

theorem decode_concat (root : PyTree) (hwf : WFTree root) (hint : isInternalB root = true)
    (table : List (Char × List Char)) (htable : table = pathsOf root []) :
    ∀ (data bits tail acc : List Char), encodeAll table data = some bits →
      decodeLoop root (bits ++ tail) root acc
        = decodeLoop root tail root (data.reverse ++ acc) := by
  intro data
  induction data with
  | nil =>
    intro bits tail acc h
    simp only [encodeAll, Option.some_inj] at h
    rw [← h]
    simp
  | cons c rest ih =>
    intro bits tail acc h
    obtain ⟨code, bits', hg, he, rfl⟩ := encodeAll_cons table c rest bits h
    have hmem : (c, code) ∈ pathsOf root [] := htable ▸ dictGet_mem table c code hg
    rw [List.append_assoc,
      decode_descend root root hwf hint c code (bits' ++ tail) acc hmem,
      ih bits' tail (c :: acc) he]
    congr 1
    simp

theorem root_internal_of_two (root : PyTree) (hwf : WFTree root) (keys : List Char)
    (hperm : (leavesOf root).Perm keys) (h2 : 2 ≤ keys.length) : isInternalB root = true := by
  cases hwf with
  | leaf c f =>
    have h := hperm.length_eq
    simp [leavesOf] at h
    omega
  | internal f hl hr => rfl

theorem pathsOf_ne_nil_snd (l r : PyTree) (f : Nat) (c : Char) (p : List Char)
    (h : (c, p) ∈ pathsOf (PyTree.node none f l r) []) : p ≠ [] := by
  rcases pathsOf_internal_mem l r f c p h with ⟨q, rfl, _⟩ | ⟨q, rfl, _⟩ <;> simp

/-- `huffman_encoding` on non-empty input: it succeeds and its pieces are
characterized. -/
theorem huffman_encoding_spec (data : List Char) (hne : data ≠ []) :
    ∃ bits root, huffman_encoding data = some (bits, root) ∧
      build_huffman_tree (build_frequency_table data) = some root ∧
      encodeAll (build_codes_table root) data = some bits ∧
      WFTree root ∧ (leavesOf root).Perm ((build_frequency_table data).map Prod.fst) ∧
      build_codes_table root = pathsOf root [] := by
  have hfne := build_frequency_table_ne_nil data hne
  obtain ⟨root, hroot, hwf, hleaves, _⟩ := build_huffman_tree_spec _ hfne
  have hnodup : (leavesOf root).Nodup :=
    (hleaves.nodup_iff).mpr (build_frequency_table_nodup data)
  have htable := build_codes_table_eq root hnodup
  have hsome : ∀ c ∈ data, ∃ v, dictGet (build_codes_table root) c = some v := by
    intro c hc
    apply dictGet_isSome_of_mem
    rw [htable, pathsOf_fst]
    exact hleaves.mem_iff.mpr ((build_frequency_table_mem data c).mpr hc)
  obtain ⟨bits, hbits⟩ := encodeAll_some _ data hsome
  refine ⟨bits, root, ?_, hroot, hbits, hwf, hleaves, htable⟩
  simp [huffman_encoding, hne, hroot, hbits]

/-- The round trip on data with at least two distinct symbols. -/
theorem roundTrip_spec (data : List Char) (h2 : 2 ≤ (build_frequency_table data).length) :
    roundTrip data = some data := by
  have hne : data ≠ [] := by
    intro h
    rw [h] at h2
    simp [build_frequency_table] at h2
  obtain ⟨bits, root, henc, hroot, hbits, hwf, hleaves, htable⟩ := huffman_encoding_spec data hne
  have hint : isInternalB root = true :=
    root_internal_of_two root hwf _ hleaves (by simpa using h2)
  have hdec : decodeLoop root (bits ++ []) root [] = decodeLoop root [] root (data.reverse ++ []) :=
    decode_concat root hwf hint _ htable data bits [] [] hbits
  rw [List.append_nil] at hdec
  have hd2 : decodeLoop root bits root [] = some data := by
    rw [hdec]
    simp [decodeLoop]
  have hbne : bits ≠ [] := by
    cases data with
    | nil => exact absurd rfl hne
    | cons c rest =>
      obtain ⟨code, bits', hg, he, hb⟩ := encodeAll_cons _ c rest bits hbits
      have hmem : (c, code) ∈ pathsOf root [] := htable ▸ dictGet_mem _ c code hg
      have hcne : code ≠ [] := by
        cases hshape : root with
        | null => rw [hshape] at hint; simp [isInternalB] at hint
        | node ch f l r =>
          cases ch with
          | some cc => rw [hshape] at hint; simp [isInternalB] at hint
          | none =>
            rw [hshape] at hmem
            exact pathsOf_ne_nil_snd l r f c code hmem
      rw [hb]
      intro hcontra
      exact hcne (List.append_eq_nil.mp hcontra).1
  have hrne : root ≠ PyTree.null := by
    intro h
    rw [h] at hint
    simp [isInternalB] at hint
  unfold roundTrip
  rw [henc]
  show huffman_decoding bits root = some data
  unfold huffman_decoding
  rw [if_neg (not_or.mpr ⟨hbne, hrne⟩)]
  exact hd2

/-! ## Prefix-freeness of the path table -/

theorem pathsOf_prefix_eq : ∀ (t : PyTree), WFTree t →
    ∀ (c1 : Char) (p1 : List Char) (c2 : Char) (p2 : List Char),
      (c1, p1) ∈ pathsOf t [] → (c2, p2) ∈ pathsOf t [] → p1 <+: p2 → c1 = c2 ∧ p1 = p2 := by
  intro t hwf
  induction hwf with
  | leaf c f =>
    intro c1 p1 c2 p2 h1 h2 _
    simp only [pathsOf, List.mem_singleton, Prod.mk.injEq] at h1 h2
    obtain ⟨rfl, rfl⟩ := h1
    obtain ⟨rfl, rfl⟩ := h2
    exact ⟨rfl, rfl⟩
  | @internal f l r hl hr ihl ihr =>
    intro c1 p1 c2 p2 h1 h2 hpre
    rcases pathsOf_internal_mem l r f c1 p1 h1 with ⟨q1, rfl, hm1⟩ | ⟨q1, rfl, hm1⟩ <;>
      rcases pathsOf_internal_mem l r f c2 p2 h2 with ⟨q2, rfl, hm2⟩ | ⟨q2, rfl, hm2⟩
    · obtain ⟨_, hq⟩ := List.cons_prefix_cons.mp hpre
      obtain ⟨he1, he2⟩ := ihl c1 q1 c2 q2 hm1 hm2 hq
      exact ⟨he1, by rw [he2]⟩
    · obtain ⟨hb, _⟩ := List.cons_prefix_cons.mp hpre
      exact absurd hb (by decide)
    · obtain ⟨hb, _⟩ := List.cons_prefix_cons.mp hpre
      exact absurd hb (by decide)
    · obtain ⟨_, hq⟩ := List.cons_prefix_cons.mp hpre
      obtain ⟨he1, he2⟩ := ihr c1 q1 c2 q2 hm1 hm2 hq
      exact ⟨he1, by rw [he2]⟩

theorem isWellFormed_iff : ∀ t : PyTree, isWellFormed t = true ↔ WFTree t := by
  intro t
  induction t with
  | null =>
    simp only [isWellFormed, Bool.false_eq_true, false_iff]
    intro h
    cases h
  | node ch f l r ihl ihr =>
    cases ch with
    | some c =>
      cases l with
      | null =>
        cases r with
        | null =>
          simp only [isWellFormed, true_iff]
          exact WFTree.leaf c f
        | node rch rf rl rr =>
          simp only [isWellFormed, Bool.false_eq_true, false_iff]
          intro h
          cases h
      | node lch lf ll lr =>
        simp only [isWellFormed, Bool.false_eq_true, false_iff]
        intro h
        cases h
    | none =>
      simp only [isWellFormed, Bool.and_eq_true, ihl, ihr]
      constructor
      · rintro ⟨h1, h2⟩
        exact WFTree.internal f h1 h2
      · intro h
        cases h with
        | @internal _ _ _ h1 h2 => exact ⟨h1, h2⟩

/-! ## Inversion and single-symbol evaluation lemmas -/

theorem huffman_encoding_inv (data bits : List Char) (root : PyTree)
    (h : huffman_encoding data = some (bits, root)) (hne : data ≠ []) :
    build_huffman_tree (build_frequency_table data) = some root ∧
    encodeAll (build_codes_table root) data = some bits := by
  obtain ⟨bits', root', henc', hb, he, _, _, _⟩ := huffman_encoding_spec data hne
  rw [h] at henc'
  simp only [Option.some_inj, Prod.mk.injEq] at henc'
  obtain ⟨rfl, rfl⟩ := henc'
  exact ⟨hb, he⟩

theorem freq_fold_replicate (c : Char) : ∀ (n k : Nat),
    (List.replicate n c).foldl dictIncr [(c, k)] = [(c, k + n)] := by
  intro n
  induction n with
  | zero => intro k; simp
  | succ n ih =>
    intro k
    rw [List.replicate_succ, List.foldl_cons]
    have h1 : dictIncr [(c, k)] c = [(c, k + 1)] := by simp [dictIncr]
    rw [h1, ih (k + 1)]
    have h2 : k + 1 + n = k + (n + 1) := by omega
    rw [h2]

theorem build_frequency_table_replicate (c : Char) (n : Nat) (h : 1 ≤ n) :
    build_frequency_table (List.replicate n c) = [(c, n)] := by
  cases n with
  | zero => omega
  | succ n =>
    rw [build_frequency_table, List.replicate_succ, List.foldl_cons]
    have h1 : dictIncr [] c = [(c, 1)] := by simp [dictIncr]
    rw [h1, freq_fold_replicate c n 1]
    have h2 : 1 + n = n + 1 := by omega
    rw [h2]

theorem heapify_one {α : Type} [Inhabited α] (lt : α → α → Bool) (t : α) :
    heapify lt [t] = [t] := by
  have h : ([t] : List α).length / 2 = 0 := by simp
  unfold heapify
  rw [h]
  rfl

theorem build_single (c : Char) (n : Nat) :
    build_huffman_tree [(c, n)] = some (PyTree.node (some c) n PyTree.null PyTree.null) := by
  unfold build_huffman_tree
  rw [show initialHeap [(c, n)] = [PyTree.node (some c) n PyTree.null PyTree.null] from rfl,
    heapify_one]
  rfl

theorem codes_single (c : Char) (n : Nat) :
    build_codes_table (PyTree.node (some c) n PyTree.null PyTree.null) = [(c, [])] := by rfl

theorem encodeAll_replicate (c : Char) : ∀ n : Nat,
    encodeAll [(c, [])] (List.replicate n c) = some [] := by
  intro n
  induction n with
  | zero => rfl
  | succ n ih =>
    rw [List.replicate_succ]
    have hg : dictGet [(c, ([] : List Char))] c = some [] := by simp [dictGet]
    simp [encodeAll, hg, ih]

/-! ## Claim theorems -/

/-- C1 (counterexample to the claim as stated): for the non-empty input "aa"
the encode/decode round trip returns the empty string, not the input, because
the single-leaf tree assigns the empty code. -/
theorem roundtrip_single_symbol_fails :
    roundTrip ['a', 'a'] = some [] ∧ roundTrip ['a', 'a'] ≠ some ['a', 'a'] := by decide

/-- C1 (amended): for every input with at least two distinct symbols,
`huffman_decoding` applied to the output of `huffman_encoding` returns
exactly the input. -/
theorem roundtrip_two_distinct (data : List Char)
    (h2 : 2 ≤ (build_frequency_table data).length) : roundTrip data = some data :=
  roundTrip_spec data h2

/-- Witness for C1 at `data = "ab"`. -/
theorem roundtrip_two_distinct_witness : roundTrip ['a', 'b'] = some ['a', 'b'] :=
  roundtrip_two_distinct ['a', 'b'] (by decide)

/-- C2 (counterexample to the claim as stated): on "aaaa" the code table maps
`'a'` to the empty bit string (not a length-one code) and the round trip
returns the empty string, not "aaaa". -/
theorem single_symbol_convention_fails :
    build_codes_table (PyTree.node (some 'a') 4 PyTree.null PyTree.null) = [('a', [])] ∧
    roundTrip ['a', 'a', 'a', 'a'] = some [] ∧
    roundTrip ['a', 'a', 'a', 'a'] ≠ some ['a', 'a', 'a', 'a'] := by decide

/-- C2 (amended): on a non-empty input with exactly one distinct symbol the
tree is the single leaf, the code table assigns the empty code to the sole
symbol, the encoded bit sequence is empty, and the round trip therefore
returns the empty string rather than the input. -/
theorem single_symbol_spec (c : Char) (n : Nat) (h : 1 ≤ n) :
    huffman_encoding (List.replicate n c)
      = some ([], PyTree.node (some c) n PyTree.null PyTree.null) ∧
    build_codes_table (PyTree.node (some c) n PyTree.null PyTree.null) = [(c, [])] ∧
    roundTrip (List.replicate n c) = some [] := by
  have hne : List.replicate n c ≠ [] := by
    intro he
    have hl := congrArg List.length he
    simp at hl
    omega
  obtain ⟨bits', root', henc', hb, hbits, _, _, _⟩ := huffman_encoding_spec _ hne
  rw [build_frequency_table_replicate c n h, build_single c n] at hb
  have hr : root' = PyTree.node (some c) n PyTree.null PyTree.null :=
    (Option.some_inj.mp hb).symm
  subst hr
  rw [codes_single, encodeAll_replicate] at hbits
  have hbe : [] = bits' := Option.some_inj.mp hbits
  rw [← hbe] at henc'
  refine ⟨henc', codes_single c n, ?_⟩
  unfold roundTrip
  rw [henc']
  show huffman_decoding [] (PyTree.node (some c) n PyTree.null PyTree.null) = some []
  simp [huffman_decoding]

/-- Witness for C2 at `c = 'a'`, `n = 4`. -/
theorem single_symbol_spec_witness :
    huffman_encoding (List.replicate 4 'a')
      = some ([], PyTree.node (some 'a') 4 PyTree.null PyTree.null) ∧
    build_codes_table (PyTree.node (some 'a') 4 PyTree.null PyTree.null) = [('a', [])] ∧
    roundTrip (List.replicate 4 'a') = some [] :=
  single_symbol_spec 'a' 4 (by decide)

/-- C3: for every non-empty frequency mapping (distinct keys), the code table
derived from the built Huffman tree is prefix-free: the code of one symbol is
never a prefix of the code of a different symbol. -/
theorem codes_prefix_free (freq : List (Char × Nat)) (hne : freq ≠ [])
    (hnd : (freq.map Prod.fst).Nodup) :
    ∃ root, build_huffman_tree freq = some root ∧
      ∀ c1 p1 c2 p2, (c1, p1) ∈ build_codes_table root → (c2, p2) ∈ build_codes_table root →
        c1 ≠ c2 → ¬ (p1 <+: p2) := by
  obtain ⟨root, hroot, hwf, hleaves, _⟩ := build_huffman_tree_spec freq hne
  have hnodup : (leavesOf root).Nodup := hleaves.nodup_iff.mpr hnd
  have htable := build_codes_table_eq root hnodup
  refine ⟨root, hroot, ?_⟩
  intro c1 p1 c2 p2 h1 h2 hcc hpre
  rw [htable] at h1 h2
  exact hcc (pathsOf_prefix_eq root hwf c1 p1 c2 p2 h1 h2 hpre).1

/-- Witness for C3 at the mapping `{'a': 1, 'b': 2}`. -/
theorem codes_prefix_free_witness :
    ∃ root, build_huffman_tree [('a', 1), ('b', 2)] = some root ∧
      ∀ c1 p1 c2 p2, (c1, p1) ∈ build_codes_table root → (c2, p2) ∈ build_codes_table root →
        c1 ≠ c2 → ¬ (p1 <+: p2) :=
  codes_prefix_free [('a', 1), ('b', 2)] (by decide) (by decide)

/-- C4: packing the directory `input` containing `a.txt` = "hello" and
`sub/b.txt` = "world" and unpacking the two artifacts into `out` reproduces
both files with identical content at the same relative paths. -/
theorem folder_roundtrip_concrete :
    folderRoundTrip [("input/a.txt", "hello".toList), ("input/sub/b.txt", "world".toList)]
      "input" "out"
      = some [("out/a.txt", "hello".toList), ("out/sub/b.txt", "world".toList)] := by decide

/-- C5 (counterexample to the claim as stated): for the tree produced by
encoding "abcc", the single bit `'1'` is a strict prefix of the code
`"10"` of `'b'` (a bit sequence ending mid-code), yet `huffman_decoding`
succeeds and silently returns the empty string instead of surfacing a
decode error. -/
theorem decode_truncation_fails :
    huffman_encoding ['a', 'b', 'c', 'c'] = some (['1', '1', '1', '0', '0', '0'],
      PyTree.node none 4 (PyTree.node (some 'c') 2 PyTree.null PyTree.null)
        (PyTree.node none 2 (PyTree.node (some 'b') 1 PyTree.null PyTree.null)
          (PyTree.node (some 'a') 1 PyTree.null PyTree.null))) ∧
    ('b', ['1', '0']) ∈ pathsOf
      (PyTree.node none 4 (PyTree.node (some 'c') 2 PyTree.null PyTree.null)
        (PyTree.node none 2 (PyTree.node (some 'b') 1 PyTree.null PyTree.null)
          (PyTree.node (some 'a') 1 PyTree.null PyTree.null))) [] ∧
    huffman_decoding ['1']
      (PyTree.node none 4 (PyTree.node (some 'c') 2 PyTree.null PyTree.null)
        (PyTree.node none 2 (PyTree.node (some 'b') 1 PyTree.null PyTree.null)
          (PyTree.node (some 'a') 1 PyTree.null PyTree.null))) = some [] := by decide

/-- C5 (amended): a bit whose chosen child does not exist (every bit on a
single-leaf root) raises an error (`none`, modelling the `AttributeError`);
but a bit sequence that ends mid-code is silently truncated: decoding
`encoded ++ q`, where `q` is a proper non-empty prefix of some leaf code,
succeeds and returns exactly the symbols of the complete codes, dropping the
trailing bits. -/
theorem decode_malformed_spec :
    (∀ (bits : List Char) (c : Char) (f : Nat), bits ≠ [] →
      huffman_decoding bits (PyTree.node (some c) f PyTree.null PyTree.null) = none) ∧
    (∀ (data bits : List Char) (root : PyTree), huffman_encoding data = some (bits, root) →
      isInternalB root = true → ∀ (c : Char) (p q : List Char), (c, p) ∈ pathsOf root [] →
        q ≠ [] → q.length < p.length → q <+: p →
        huffman_decoding (bits ++ q) root = some data) := by
  constructor
  · intro bits c f hne
    cases bits with
    | nil => exact absurd rfl hne
    | cons b rest =>
      simp [huffman_decoding, decodeLoop, ite_self]
  · intro data bits root henc hint c p q hmem hqne hlen hpre
    have hne : data ≠ [] := by
      intro hd
      subst hd
      have h0 : huffman_encoding ([] : List Char) = some ([], PyTree.null) := rfl
      rw [h0] at henc
      simp only [Option.some_inj, Prod.mk.injEq] at henc
      obtain ⟨_, hroot⟩ := henc
      rw [← hroot] at hint
      simp [isInternalB] at hint
    obtain ⟨bits', root', henc', _, hbits, hwf, hleaves, htable⟩ := huffman_encoding_spec data hne
    rw [henc] at henc'
    simp only [Option.some_inj, Prod.mk.injEq] at henc'
    obtain ⟨rfl, rfl⟩ := henc'
    have hrne : root ≠ PyTree.null := by
      intro h
      rw [h] at hint
      simp [isInternalB] at hint
    have hbqne : bits ++ q ≠ [] := fun h => hqne (List.append_eq_nil.mp h).2
    unfold huffman_decoding
    rw [if_neg (not_or.mpr ⟨hbqne, hrne⟩)]
    rw [decode_concat root hwf hint _ htable data bits q [] hbits, List.append_nil,
      decode_prefixWalk root root hwf hint c p q data.reverse hmem hlen hpre]
    simp

/-- Witness for C5: the missing-child error on a single-leaf tree, and silent
truncation of the mid-code tail `['1']` after the encoding of "abcc". -/
theorem decode_malformed_spec_witness :
    huffman_decoding ['0'] (PyTree.node (some 'a') 2 PyTree.null PyTree.null) = none ∧
    huffman_decoding (['1', '1', '1', '0', '0', '0'] ++ ['1'])
      (PyTree.node none 4 (PyTree.node (some 'c') 2 PyTree.null PyTree.null)
        (PyTree.node none 2 (PyTree.node (some 'b') 1 PyTree.null PyTree.null)
          (PyTree.node (some 'a') 1 PyTree.null PyTree.null)))
      = some ['a', 'b', 'c', 'c'] :=
  ⟨decode_malformed_spec.1 ['0'] 'a' 2 (by decide),
    decode_malformed_spec.2 ['a', 'b', 'c', 'c'] ['1', '1', '1', '0', '0', '0']
      (PyTree.node none 4 (PyTree.node (some 'c') 2 PyTree.null PyTree.null)
        (PyTree.node none 2 (PyTree.node (some 'b') 1 PyTree.null PyTree.null)
          (PyTree.node (some 'a') 1 PyTree.null PyTree.null)))
      (by decide) (by decide) 'b' ['1', '0'] ['1'] (by decide) (by decide) (by decide)
      ⟨['0'], rfl⟩⟩

/-- C6: on every non-empty frequency mapping `build_huffman_tree` succeeds,
and the resulting tree is well formed (every internal node has exactly two
children, every leaf none) with root frequency equal to the sum of all
counts. -/
theorem build_tree_total_spec (freq : List (Char × Nat)) (hne : freq ≠ []) :
    ∃ root, build_huffman_tree freq = some root ∧ isWellFormed root = true ∧
      root.freqOf = (freq.map Prod.snd).sum := by
  obtain ⟨root, h1, h2, _, h4⟩ := build_huffman_tree_spec freq hne
  exact ⟨root, h1, (isWellFormed_iff root).mpr h2, h4⟩

/-- Witness for C6 at the mapping `{'a': 1, 'b': 2, 'c': 4}`. -/
theorem build_tree_total_spec_witness :
    ∃ root, build_huffman_tree [('a', 1), ('b', 2), ('c', 4)] = some root ∧
      isWellFormed root = true ∧
      root.freqOf = ([('a', 1), ('b', 2), ('c', 4)].map Prod.snd).sum :=
  build_tree_total_spec [('a', 1), ('b', 2), ('c', 4)] (by decide)

/-- C7: the empty input yields the explicit no-data result `("", None)`, and
whenever `huffman_encoding` returns a bit sequence it is exactly the
concatenation, in input order, of each symbol's code from the derived code
table. -/
theorem encoding_concat_spec :
    huffman_encoding [] = some ([], PyTree.null) ∧
    ∀ (data bits : List Char) (root : PyTree), huffman_encoding data = some (bits, root) →
      bits = (data.map (fun ch => (dictGet (build_codes_table root) ch).getD [])).flatten := by
  refine ⟨rfl, ?_⟩
  intro data bits root h
  by_cases hne : data = []
  · subst hne
    have h0 : huffman_encoding ([] : List Char) = some ([], PyTree.null) := rfl
    rw [h0] at h
    simp only [Option.some_inj, Prod.mk.injEq] at h
    obtain ⟨rfl, rfl⟩ := h
    rfl
  · obtain ⟨_, he⟩ := huffman_encoding_inv data bits root h hne
    exact encodeAll_flatten _ data bits he

/-- Witness for C7 at `data = "ab"`. -/
theorem encoding_concat_spec_witness :
    ['1', '0'] = (['a', 'b'].map (fun ch => (dictGet (build_codes_table
      (PyTree.node none 2 (PyTree.node (some 'b') 1 PyTree.null PyTree.null)
        (PyTree.node (some 'a') 1 PyTree.null PyTree.null))) ch).getD [])).flatten :=
  encoding_concat_spec.2 ['a', 'b'] ['1', '0']
    (PyTree.node none 2 (PyTree.node (some 'b') 1 PyTree.null PyTree.null)
      (PyTree.node (some 'a') 1 PyTree.null PyTree.null)) (by decide)

/-- C8: `compress_folder` on an empty directory reports "No data to
compress." and writes neither artifact; but when writing the compressed
artifact fails on a non-empty directory, the control flow still writes the
tree artifact and still prints "Compression complete.", i.e. it reports
success with a partial artifact on disk. -/
theorem compress_folder_flow_eval :
    compress_folder_flow [] true true true
      = ⟨false, false, ["No data to compress."]⟩ ∧
    compress_folder_flow [("f/a.txt", "hello".toList)] true false true
      = ⟨false, true, ["Error writing compressed file", "Compression complete."]⟩ := by decide

/-- C9: on every non-empty input the encoder succeeds (no missing-key error)
and the keys of the code table built inside `huffman_encoding` are exactly
the distinct symbols of the input (the keys of the frequency table). -/
theorem code_table_keys_spec (data : List Char) (hne : data ≠ []) :
    ∃ bits root, huffman_encoding data = some (bits, root) ∧
      ((build_codes_table root).map Prod.fst).Perm
        ((build_frequency_table data).map Prod.fst) := by
  obtain ⟨bits, root, henc, _, _, _, hleaves, htable⟩ := huffman_encoding_spec data hne
  refine ⟨bits, root, henc, ?_⟩
  rw [htable, pathsOf_fst]
  exact hleaves

/-- Witness for C9 at `data = "ab"`. -/
theorem code_table_keys_spec_witness :
    ∃ bits root, huffman_encoding ['a', 'b'] = some (bits, root) ∧
      ((build_codes_table root).map Prod.fst).Perm
        ((build_frequency_table ['a', 'b']).map Prod.fst) :=
  code_table_keys_spec ['a', 'b'] (by decide)

/-- C10: `huffman_decoding` returns the empty string without error whenever
the encoded bit sequence is empty (for any root, including `None`) or the
root is `None` (for any bit sequence). -/
theorem decoding_empty_total :
    (∀ root : PyTree, huffman_decoding [] root = some []) ∧
    (∀ bits : List Char, huffman_decoding bits PyTree.null = some []) := by
  constructor
  · intro root
    simp [huffman_decoding]
  · intro bits
    simp [huffman_decoding]
